import Mathlib

/-!
Shallow embedding of the freesia two-tier caching facade (src/freesia.go).

Each facade operation is modelled as a pure function of an `Env` — the
response oracles of the external collaborators (codec, local cache,
remote store, pipeline, msgpack) — returning the operation's result
together with the ordered trace of collaborator calls it performed.
The entry's logical value type is an arbitrary parameter `Val`
(Go's `interface{}`).
-/

namespace Freesia

/-- Byte strings (Go `[]byte`), modelled as lists of naturals. -/
abbrev Bytes := List Nat

/-- A value held by the local cache (roc stores `interface{}`):
either a byte slice or some non-byte-slice value. -/
inductive CVal where
  | bytes (b : Bytes)
  | other
deriving DecidableEq

/-- Result of a remote-store Get: found bytes, a definitive miss
(`redis.Nil`), or a store/network error. -/
inductive StoreGetRes where
  | found (b : Bytes)
  | notFound
  | err
deriving DecidableEq

/-- A command buffered in a remote pipeline. -/
inductive PipeCmd where
  | set (k : String) (b : Bytes) (ttl : Nat)
  | get (k : String)
deriving DecidableEq

/-- Modelled from the spec: `entry.Entry` (package entry of this
repository, not under src/) — key, logical value, remote TTL, and the
local-cache eligibility flag. The encoded payload `Data` is produced by
the codec oracle of `Env` (encoding is a function of the value). -/
structure Entry (Val : Type) where
  key : String
  value : Val
  expiration : Nat
  enableLocalCache : Bool
deriving DecidableEq

/-- An asynchronous job submitted to the curlew dispatcher: a backfill
job carrying the entry supplied at Get time, or an invalidation job
carrying a raw message payload. -/
inductive Job (Val : Type) where
  | backfill (e : Entry Val)
  | invalidate (payload : Bytes)
deriving DecidableEq

instance {ε α : Type} [DecidableEq ε] [DecidableEq α] : DecidableEq (Except ε α) := fun x y =>
  match x, y with
  | .ok a, .ok b =>
    if h : a = b then isTrue (congrArg Except.ok h)
    else isFalse (fun hh => h (Except.ok.inj hh))
  | .ok _, .error _ => isFalse (fun hh => Except.noConfusion hh)
  | .error _, .ok _ => isFalse (fun hh => Except.noConfusion hh)
  | .error a, .error b =>
    if h : a = b then isTrue (congrArg Except.error h)
    else isFalse (fun hh => h (Except.error.inj hh))

/-- One collaborator call performed by the facade, with its result. -/
inductive Ev (Val : Type) where
  | encodeEv (v : Val) (res : Except Unit Bytes)
  | decodeEv (b : Bytes) (res : Except Unit Val)
  | cacheGetEv (k : String) (res : Except Unit CVal)
  | cacheSetEv (k : String) (b : Bytes) (ttl : Nat) (res : Except Unit Unit)
  | cacheDelEv (k : String) (res : Except Unit Unit)
  | storeGetEv (k : String) (res : StoreGetRes)
  | storeSetEv (k : String) (b : Bytes) (ttl : Nat) (res : Except Unit Unit)
  | storeDelEv (ks : List String) (res : Except Unit Nat)
  | pipeExecEv (cmds : List PipeCmd) (res : Except Unit (List StoreGetRes))
  | submitEv (j : Job Val)
deriving DecidableEq

/-- Error outcomes of a facade operation, abstracting the wrapped Go
errors: encode failure, decode failure, remote-store failure, local
cache failure, the `redis.Nil` not-found signal, and pipeline failure. -/
inductive Err where
  | encode
  | decode
  | store
  | cache
  | notFound
  | pipe
deriving DecidableEq

/-- Response oracles of the external collaborators: codec
(msgpack Encode/Decode of entry values and of invalidation key lists),
local cache (roc), remote store (redis), and the pipeline executor. -/
structure Env (Val : Type) where
  encode : Val → Except Unit Bytes
  decode : Bytes → Except Unit Val
  unmarshalKeys : Bytes → Except Unit (List String)
  cacheGet : String → Except Unit CVal
  cacheSet : String → Bytes → Nat → Except Unit Unit
  cacheDel : String → Except Unit Unit
  storeGet : String → StoreGetRes
  storeSet : String → Bytes → Nat → Except Unit Unit
  storeDel : List String → Except Unit Nat
  pipeExec : List PipeCmd → Except Unit (List StoreGetRes)

variable {Val : Type}

/-- freesia.go `Set`: encode; store.Set with the entry's TTL; if the
entry is locally cacheable, cache.Set with half the TTL. -/
def Set (env : Env Val) (e : Entry Val) : Except Err Unit × List (Ev Val) :=
  match env.encode e.value with
  | .error _ => (.error .encode, [.encodeEv e.value (.error ())])
  | .ok b =>
    match env.storeSet e.key b e.expiration with
    | .error _ =>
      (.error .store,
        [.encodeEv e.value (.ok b), .storeSetEv e.key b e.expiration (.error ())])
    | .ok _ =>
      if e.enableLocalCache then
        match env.cacheSet e.key b (e.expiration / 2) with
        | .error _ =>
          (.error .cache,
            [.encodeEv e.value (.ok b), .storeSetEv e.key b e.expiration (.ok ()),
             .cacheSetEv e.key b (e.expiration / 2) (.error ())])
        | .ok _ =>
          (.ok (),
            [.encodeEv e.value (.ok b), .storeSetEv e.key b e.expiration (.ok ()),
             .cacheSetEv e.key b (e.expiration / 2) (.ok ())])
      else
        (.ok (), [.encodeEv e.value (.ok b), .storeSetEv e.key b e.expiration (.ok ())])

/-- freesia.go `MSet` phase 1: encode each entry in order, buffering a
pipeline Set command per entry (buffering performs no collaborator call);
abort on the first encode failure. Returns the (entry, bytes) pairs. -/
def msetEncode (env : Env Val) : List (Entry Val) → Except Err (List (Entry Val × Bytes)) × List (Ev Val)
  | [] => (.ok [], [])
  | e :: es =>
    match env.encode e.value with
    | .error _ => (.error .encode, [.encodeEv e.value (.error ())])
    | .ok b =>
      let r := msetEncode env es
      (r.1.map (fun l => (e, b) :: l), .encodeEv e.value (.ok b) :: r.2)

/-- freesia.go `MSet` phase 2: for each entry in order, if locally
cacheable, cache.Set with the full TTL; the first failure aborts. -/
def msetLocal (env : Env Val) : List (Entry Val × Bytes) → Except Err Unit × List (Ev Val)
  | [] => (.ok (), [])
  | p :: rest =>
    if p.1.enableLocalCache then
      match env.cacheSet p.1.key p.2 p.1.expiration with
      | .error _ => (.error .cache, [.cacheSetEv p.1.key p.2 p.1.expiration (.error ())])
      | .ok _ =>
        let r := msetLocal env rest
        (r.1, .cacheSetEv p.1.key p.2 p.1.expiration (.ok ()) :: r.2)
    else msetLocal env rest

/-- freesia.go `MSet`: encode all entries (buffering pipeline Sets),
execute the pipeline once, then write locally cacheable entries into the
local cache with the full TTL. -/
def MSet (env : Env Val) (es : List (Entry Val)) : Except Err Unit × List (Ev Val) :=
  match msetEncode env es with
  | (.error er, evs) => (.error er, evs)
  | (.ok pairs, evs) =>
    let cmds := pairs.map (fun p => PipeCmd.set p.1.key p.2 p.1.expiration)
    match env.pipeExec cmds with
    | .error _ => (.error .pipe, evs ++ [.pipeExecEv cmds (.error ())])
    | .ok rs =>
      let r := msetLocal env pairs
      (r.1, evs ++ .pipeExecEv cmds (.ok rs) :: r.2)

/-- freesia.go `Get`, remote part (lines 101-121): store.Get; on
`redis.Nil` submit a backfill job and return the not-found signal; on a
hit decode (hard error on failure); otherwise wrap the store error. -/
def getStore (env : Env Val) (e : Entry Val) : Except Err Unit × List (Ev Val) :=
  match env.storeGet e.key with
  | .notFound =>
    (.error .notFound, [.storeGetEv e.key .notFound, .submitEv (.backfill e)])
  | .found b =>
    match env.decode b with
    | .error _ => (.error .decode, [.storeGetEv e.key (.found b), .decodeEv b (.error ())])
    | .ok v => (.ok (), [.storeGetEv e.key (.found b), .decodeEv b (.ok v)])
  | .err => (.error .store, [.storeGetEv e.key .err])

/-- freesia.go `Get` (lines 90-121): for a locally cacheable entry, try
cache.Get; when it returns without error the code casts the value to a
byte slice (`b, ok := data.([]byte)`, with `b = nil` when the cast
fails), always calls Decode on `b`, and returns a hard error only when
the cast succeeded and Decode failed — otherwise it returns success
without consulting the remote store. A cache.Get error falls through to
the remote part. -/
def Get (env : Env Val) (e : Entry Val) : Except Err Unit × List (Ev Val) :=
  if e.enableLocalCache then
    match env.cacheGet e.key with
    | .ok (.bytes b) =>
      match env.decode b with
      | .error _ =>
        (.error .decode, [.cacheGetEv e.key (.ok (.bytes b)), .decodeEv b (.error ())])
      | .ok v =>
        (.ok (), [.cacheGetEv e.key (.ok (.bytes b)), .decodeEv b (.ok v)])
    | .ok .other =>
      (.ok (), [.cacheGetEv e.key (.ok .other), .decodeEv [] (env.decode [])])
    | .error _ =>
      let r := getStore env e
      (r.1, .cacheGetEv e.key (.error ()) :: r.2)
  else getStore env e

/-- Outcome of `batchGet`'s first loop: either the loop returned early
(`return nil, err` on a local-cache byte-slice hit — `.ok` when the
decode succeeded, an error when it failed), or it completed with the
set of indices marked found and the pending (index, entry) pairs whose
keys were buffered as pipeline Get commands. -/
inductive ScanOut (Val : Type) where
  | halted (r : Except Err Unit)
  | done (found : List Nat) (pending : List (Nat × Entry Val))

/-- Add an index to the found set of a completed scan. -/
def ScanOut.addFound (i : Nat) : ScanOut Val → ScanOut Val
  | .halted r => .halted r
  | .done found pending => .done (i :: found) pending

/-- Add a pending pair to a completed scan. -/
def ScanOut.addPending (p : Nat × Entry Val) : ScanOut Val → ScanOut Val
  | .halted r => .halted r
  | .done found pending => .done found (p :: pending)

/-- freesia.go `batchGet` first loop (lines 127-139): for each entry, if
locally cacheable, cache.Get; when the value is a byte slice and there
was no error, decode and immediately `return nil, err` (returning the
decode error, or a nil miss list on success); otherwise mark the entry
found and continue. Non-cacheable entries buffer a pipeline Get. List
positions stand for the distinct `*entry.Entry` pointers keying the
`found` and `ret` maps. -/
def bgScan (env : Env Val) : List (Nat × Entry Val) → ScanOut Val × List (Ev Val)
  | [] => (.done [] [], [])
  | p :: rest =>
    if p.2.enableLocalCache then
      match env.cacheGet p.2.key with
      | .ok (.bytes b) =>
        match env.decode b with
        | .error _ =>
          (.halted (.error .decode),
            [.cacheGetEv p.2.key (.ok (.bytes b)), .decodeEv b (.error ())])
        | .ok v =>
          (.halted (.ok ()),
            [.cacheGetEv p.2.key (.ok (.bytes b)), .decodeEv b (.ok v)])
      | .ok .other =>
        let r := bgScan env rest
        (r.1.addFound p.1, .cacheGetEv p.2.key (.ok .other) :: r.2)
      | .error _ =>
        let r := bgScan env rest
        (r.1.addFound p.1, .cacheGetEv p.2.key (.error ()) :: r.2)
    else
      let r := bgScan env rest
      (r.1.addPending p, r.2)

/-- freesia.go `batchGet` second loop (lines 145-172): each pipeline Get
result is matched back to its entry; `redis.Nil` submits a backfill job
and leaves the entry out of the found set; a hit decodes (aborting the
whole call on failure) and marks the entry found; any other error aborts
the whole call. Returns the indices marked found in this phase. -/
def bgExecRes (env : Env Val) : List ((Nat × Entry Val) × StoreGetRes) → Except Err (List Nat) × List (Ev Val)
  | [] => (.ok [], [])
  | (p, res) :: rest =>
    match res with
    | .notFound =>
      let r := bgExecRes env rest
      (r.1, .submitEv (.backfill p.2) :: r.2)
    | .found b =>
      match env.decode b with
      | .error _ => (.error .decode, [.decodeEv b (.error ())])
      | .ok v =>
        let r := bgExecRes env rest
        (r.1.map (fun l => p.1 :: l), .decodeEv b (.ok v) :: r.2)
    | .err => (.error .store, [])

/-- freesia.go `batchGet` (lines 123-181): scan loop, one pipeline Exec,
result loop, then the miss list — the input entries not in the found
set, in input order. -/
def batchGet (env : Env Val) (es : List (Entry Val)) : Except Err (List (Entry Val)) × List (Ev Val) :=
  let ies := es.enum
  match bgScan env ies with
  | (.halted (.error er), evs) => (.error er, evs)
  | (.halted (.ok _), evs) => (.ok [], evs)
  | (.done found pending, evs) =>
    let cmds := pending.map (fun p => PipeCmd.get p.2.key)
    match env.pipeExec cmds with
    | .error _ => (.error .pipe, evs ++ [.pipeExecEv cmds (.error ())])
    | .ok rs =>
      match bgExecRes env (pending.zip rs) with
      | (.error er, evs2) => (.error er, evs ++ .pipeExecEv cmds (.ok rs) :: evs2)
      | (.ok found2, evs2) =>
        let allFound := found ++ found2
        let miss := (ies.filter (fun p => !(allFound.contains p.1))).map Prod.snd
        (.ok miss, evs ++ .pipeExecEv cmds (.ok rs) :: evs2)

/-- Modelled from the spec: BatchPlanner (`mass`, an external
collaborator) — given total count n and maximum chunk size c, the
sequence of (offset, length) pairs covering [0, n) in order, each
length at most c. -/
def chunkPlan (n c : Nat) : List (Nat × Nat) :=
  (List.range ((n + c - 1) / c)).map (fun i => (i * c, min c (n - i * c)))

/-- freesia.go `MGet` chunk loop: run `batchGet` on each chunk in order,
aborting on the first error and concatenating the miss lists. -/
def mgetChunks (env : Env Val) (es : List (Entry Val)) : List (Nat × Nat) → Except Err (List (Entry Val)) × List (Ev Val)
  | [] => (.ok [], [])
  | c :: rest =>
    match batchGet env ((es.drop c.1).take c.2) with
    | (.error er, evs) => (.error er, evs)
    | (.ok ee, evs) =>
      let r := mgetChunks env es rest
      (r.1.map (fun l => ee ++ l), evs ++ r.2)

/-- freesia.go `MGet` (lines 183-195): chunk the input with maximum
chunk size 3000 and run `batchGet` per chunk. -/
def MGet (env : Env Val) (es : List (Entry Val)) : Except Err (List (Entry Val)) × List (Ev Val) :=
  mgetChunks env es (chunkPlan es.length 3000)

/-- freesia.go `Del` local loop (lines 205-209): cache.Del each key in
order; the first failure aborts and is returned. -/
def delLocal (env : Env Val) : List String → Except Err Unit × List (Ev Val)
  | [] => (.ok (), [])
  | k :: ks =>
    match env.cacheDel k with
    | .error _ => (.error .cache, [.cacheDelEv k (.error ())])
    | .ok _ =>
      let r := delLocal env ks
      (r.1, .cacheDelEv k (.ok ()) :: r.2)

/-- freesia.go `Del` (lines 197-211): success with no collaborator call
on empty input; otherwise one store.Del of all keys (failure aborts),
then the local delete loop. -/
def Del (env : Env Val) (keys : List String) : Except Err Unit × List (Ev Val) :=
  match keys with
  | [] => (.ok (), [])
  | _ =>
    match env.storeDel keys with
    | .error _ => (.error .store, [.storeDelEv keys (.error ())])
    | .ok n =>
      let r := delLocal env keys
      (r.1, .storeDelEv keys (.ok n) :: r.2)

/-- Running a dispatched job (freesia.go lines 104-108, 157-161,
222-236): a backfill job invokes the same `Set` logic on its entry; an
invalidation job msgpack-decodes its payload into a key list (failure is
the job's error) and cache.Dels each key, ignoring individual failures. -/
def Job.run (env : Env Val) : Job Val → Except Err Unit × List (Ev Val)
  | .backfill e => Set env e
  | .invalidate payload =>
    match env.unmarshalKeys payload with
    | .error _ => (.error .decode, [])
    | .ok keys => (.ok (), keys.map (fun k => .cacheDelEv k (env.cacheDel k)))

/-- freesia.go `sub` (lines 213-241): the subscription loop submits, for
each received message in order, one asynchronous `Job.invalidate` job
carrying that message's payload; nothing else happens inline. -/
def subLoop (Val : Type) (msgs : List Bytes) : List (Ev Val) :=
  msgs.map (fun m => Ev.submitEv (Job.invalidate m))

/-- Is the event a local-cache write call? -/
def Ev.isCacheSet : Ev Val → Bool
  | .cacheSetEv _ _ _ _ => true
  | _ => false

/-- Is the event a local-cache delete call? -/
def Ev.isCacheDel : Ev Val → Bool
  | .cacheDelEv _ _ => true
  | _ => false

/-- Is the event a remote-store call (get, set, del or pipeline)? -/
def Ev.isStoreOp : Ev Val → Bool
  | .storeGetEv _ _ => true
  | .storeSetEv _ _ _ _ => true
  | .storeDelEv _ _ => true
  | .pipeExecEv _ _ => true
  | _ => false

/-- Is the event a job submission to the dispatcher? -/
def Ev.isSubmit : Ev Val → Bool
  | .submitEv _ => true
  | _ => false

/-- Is the event a pipeline execution? -/
def Ev.isPipeExec : Ev Val → Bool
  | .pipeExecEv _ _ => true
  | _ => false

/-- Is the event a successful write to either tier (a cache.Set or
store.Set that returned ok, or a pipeline Exec that returned ok)? -/
def Ev.isWrite : Ev Val → Bool
  | .cacheSetEv _ _ _ (.ok _) => true
  | .storeSetEv _ _ _ (.ok _) => true
  | .pipeExecEv _ (.ok _) => true
  | _ => false

/-- Is the event any write attempt to either tier, successful or not? -/
def Ev.isWriteCall : Ev Val → Bool
  | .cacheSetEv _ _ _ _ => true
  | .storeSetEv _ _ _ _ => true
  | .pipeExecEv _ _ => true
  | _ => false

/-! ### Concrete environments and entries for witnesses and counterexamples -/

/-- A concrete environment: every key misses both tiers, all writes and
deletes succeed, decode succeeds, invalidation payloads decode to
`["a", "b"]`. -/
def envMiss : Env Unit := {
  encode := fun _ => .ok [1]
  decode := fun _ => .ok ()
  unmarshalKeys := fun _ => .ok ["a", "b"]
  cacheGet := fun _ => .error ()
  cacheSet := fun _ _ _ => .ok ()
  cacheDel := fun _ => .ok ()
  storeGet := fun _ => .notFound
  storeSet := fun _ _ _ => .ok ()
  storeDel := fun _ => .ok 0
  pipeExec := fun cmds => .ok (cmds.map (fun _ => StoreGetRes.notFound)) }

/-- Variant: the local cache holds the byte slice `[1]` for every key. -/
def envHit : Env Unit := { envMiss with cacheGet := fun _ => .ok (.bytes [1]) }

/-- Variant: local-cache hits return `[1]`, but decoding fails. -/
def envBadLocal : Env Unit :=
  { envMiss with cacheGet := fun _ => .ok (.bytes [1]), decode := fun _ => .error () }

/-- Variant: the local cache holds a non-byte-slice value for every key,
and decoding the nil byte slice fails. -/
def envOther : Env Unit :=
  { envMiss with cacheGet := fun _ => .ok .other
                 decode := fun b => if b = [] then .error () else .ok () }

/-- Variant: encoding always fails. -/
def envEncFail : Env Unit := { envMiss with encode := fun _ => .error () }

/-- Variant: pipeline execution always fails. -/
def envPipeFail : Env Unit := { envMiss with pipeExec := fun _ => .error () }

/-- Variant: local-cache deletion succeeds for "a" and fails otherwise. -/
def envDelFail : Env Unit :=
  { envMiss with cacheDel := fun k => if k = "a" then .ok () else .error () }

/-- Variant: local-cache deletion fails for "a" and succeeds otherwise. -/
def envInvFail : Env Unit :=
  { envMiss with cacheDel := fun k => if k = "a" then .error () else .ok () }

/-- A locally cacheable entry under key "k1". -/
def eLoc : Entry Unit := { key := "k1", value := (), expiration := 10, enableLocalCache := true }

/-- A non-locally-cacheable entry under key "k2". -/
def eRem : Entry Unit := { key := "k2", value := (), expiration := 10, enableLocalCache := false }

/-- A concrete invalidation payload. -/
def p0 : Bytes := [5]

/-! ### Claim theorems -/

/-- Claim C1, failing input: with "k1" locally cacheable and absent from
both tiers and "k2" (not locally cacheable) absent from the remote
store, `MGet` returns only "k2" as a miss. The entry "k1" was resolved
in neither tier, yet the scan loop marks it found on its local-cache
miss, never queries the remote store for it, and drops it from the miss
list. -/
theorem mget_drops_unresolved_local_entry :
    (MGet envMiss [eLoc, eRem]).1 = Except.ok [eRem] ∧
    (MGet envMiss [eLoc, eRem]).2 =
      [.cacheGetEv "k1" (.error ()),
       .pipeExecEv [.get "k2"] (.ok [.notFound]),
       .submitEv (.backfill eRem)] := by decide

/-- Claim C6, failing input: a single locally cacheable entry whose key
is present in the local cache. One chunk is planned, but `batchGet`
returns from its scan loop before executing the pipeline, so zero
pipelined remote batches are issued instead of `ceil(1/3000) = 1`. -/
theorem mget_issues_no_batch_on_local_hit :
    ((MGet envHit [eLoc]).2.filter Ev.isPipeExec).length = 0 ∧
    (chunkPlan (List.length [eLoc]) 3000).length = 1 := by decide

/-- Claim C8, counterexample: one message whose payload decodes to the
two keys "a" and "b" causes exactly one dispatcher submission — the
loop submits one job per message, not one eviction job per key. -/
theorem sub_single_job_for_two_keys :
    ((subLoop Unit [p0]).filter Ev.isSubmit).length = 1 ∧
    envMiss.unmarshalKeys p0 = .ok ["a", "b"] ∧
    ¬ ((subLoop Unit [p0]).filter Ev.isSubmit).length = 2 := by decide

/-- Claim C10: for a locally cacheable entry whose local-cache lookup
succeeds with a non-byte-slice value, `Get` decodes the nil byte slice,
ignores the decode result, and returns success with no remote-store
call. -/
theorem get_nonbytes_local_hit {Val : Type} (env : Env Val) (e : Entry Val)
    (helc : e.enableLocalCache = true) (hcg : env.cacheGet e.key = .ok .other) :
    (Get env e).1 = .ok () ∧
    (Get env e).2 = [.cacheGetEv e.key (.ok .other), .decodeEv [] (env.decode [])] := by
  simp [Get, helc, hcg]

/-- Witness for C10: a concrete non-byte-slice local hit, where the nil
decode in fact fails, still yields success and no remote-store call. -/
theorem get_nonbytes_local_hit_witness :
    (Get envOther eLoc).1 = .ok () ∧
    (Get envOther eLoc).2 = [.cacheGetEv eLoc.key (.ok .other), .decodeEv [] (envOther.decode [])] :=
  get_nonbytes_local_hit envOther eLoc rfl rfl

/-- Claim C2: for a locally cacheable entry, a local-cache lookup
failure falls through to the remote part unchanged (with the lookup
recorded first); a decode failure on a confirmed local byte-slice hit is
a hard error with no remote-store call; a successful local hit and
decode returns success with no remote-store call. -/
theorem get_local_fallthrough_and_hard_error {Val : Type} (env : Env Val) (e : Entry Val)
    (helc : e.enableLocalCache = true) :
    (env.cacheGet e.key = .error () →
      Get env e = ((getStore env e).1, .cacheGetEv e.key (.error ()) :: (getStore env e).2)) ∧
    (∀ b, env.cacheGet e.key = .ok (.bytes b) → env.decode b = .error () →
      (Get env e).1 = .error .decode ∧ (Get env e).2.filter Ev.isStoreOp = []) ∧
    (∀ b v, env.cacheGet e.key = .ok (.bytes b) → env.decode b = .ok v →
      (Get env e).1 = .ok () ∧ (Get env e).2.filter Ev.isStoreOp = []) := by
  refine ⟨fun hcg => ?_, fun b hcg hdec => ?_, fun b v hcg hdec => ?_⟩
  · simp [Get, helc, hcg]
  · simp [Get, helc, hcg, hdec, Ev.isStoreOp, List.filter]
  · simp [Get, helc, hcg, hdec, Ev.isStoreOp, List.filter]

/-- Witness for C2: the fall-through branch at a concrete local-lookup
failure, and the hard-error branch at a concrete bad local hit. -/
theorem get_local_fallthrough_witness :
    (Get envMiss eLoc = ((getStore envMiss eLoc).1,
        .cacheGetEv eLoc.key (.error ()) :: (getStore envMiss eLoc).2)) ∧
    ((Get envBadLocal eLoc).1 = .error .decode ∧
      (Get envBadLocal eLoc).2.filter Ev.isStoreOp = []) :=
  ⟨(get_local_fallthrough_and_hard_error envMiss eLoc rfl).1 rfl,
   (get_local_fallthrough_and_hard_error envBadLocal eLoc rfl).2.1 [1] rfl rfl⟩

/-- Claim C3: for an entry absent from both tiers (the local lookup
errors when the entry is locally cacheable, the remote store reports
not-found), `Get` returns the not-found signal, submits exactly one
backfill job carrying that entry, and running that job is the same as
running `Set` on the entry. -/
theorem get_double_miss_backfill {Val : Type} (env : Env Val) (e : Entry Val)
    (hcache : e.enableLocalCache = true → env.cacheGet e.key = .error ())
    (hstore : env.storeGet e.key = .notFound) :
    (Get env e).1 = .error .notFound ∧
    (Get env e).2.filter Ev.isSubmit = [.submitEv (.backfill e)] ∧
    Job.run env (.backfill e) = Set env e := by
  refine ⟨?_, ?_, rfl⟩ <;> cases helc : e.enableLocalCache
  · simp [Get, getStore, helc, hstore]
  · simp [Get, getStore, helc, hcache helc, hstore]
  · simp [Get, getStore, helc, hstore, Ev.isSubmit, List.filter]
  · simp [Get, getStore, helc, hcache helc, hstore, Ev.isSubmit, List.filter]

/-- Witness for C3: a concrete entry missing from both tiers. -/
theorem get_double_miss_backfill_witness :
    (Get envMiss eLoc).1 = .error .notFound ∧
    (Get envMiss eLoc).2.filter Ev.isSubmit = [.submitEv (.backfill eLoc)] ∧
    Job.run envMiss (.backfill eLoc) = Set envMiss eLoc :=
  get_double_miss_backfill envMiss eLoc (fun _ => rfl) rfl

/-- Every event of the MSet encode phase is a codec encode event. -/
theorem msetEncode_events {Val : Type} (env : Env Val) (es : List (Entry Val)) :
    ∀ ev ∈ (msetEncode env es).2, ∃ v r, ev = Ev.encodeEv v r := by
  induction es with
  | nil => intro ev h; simp [msetEncode] at h
  | cons e0 es ih =>
    intro ev h
    cases henc : env.encode e0.value with
    | error u =>
      simp [msetEncode, henc] at h
      exact ⟨e0.value, .error u, h⟩
    | ok b =>
      simp [msetEncode, henc] at h
      rcases h with h | h
      · exact ⟨e0.value, .ok b, h⟩
      · exact ih ev h

/-- The MSet encode phase performs no write call. -/
theorem msetEncode_no_write {Val : Type} (env : Env Val) (es : List (Entry Val)) :
    (msetEncode env es).2.filter Ev.isWriteCall = [] := by
  rw [List.filter_eq_nil_iff]
  intro ev h
  obtain ⟨v, r, rfl⟩ := msetEncode_events env es ev h
  simp [Ev.isWriteCall]

/-- An event that is not a write call is not a successful write. -/
theorem Ev.isWrite_false {Val : Type} (ev : Ev Val) (h : ev.isWriteCall = false) :
    ev.isWrite = false := by
  cases ev <;> simp_all [Ev.isWrite, Ev.isWriteCall]

/-- If some entry fails to encode, the MSet encode phase returns the
encode error. -/
theorem msetEncode_err {Val : Type} (env : Env Val) (es : List (Entry Val)) (e : Entry Val)
    (he : e ∈ es) (hf : env.encode e.value = .error ()) :
    (msetEncode env es).1 = .error .encode := by
  induction es with
  | nil => cases he
  | cons e0 es ih =>
    cases henc : env.encode e0.value with
    | error u => simp [msetEncode, henc]
    | ok b =>
      rcases List.mem_cons.mp he with rfl | hmem
      · rw [henc] at hf; cases hf
      · simp [msetEncode, henc, ih hmem, Except.map]

/-- An error from the MSet encode phase is always the encode error. -/
theorem msetEncode_error_is_encode {Val : Type} (env : Env Val) (es : List (Entry Val)) (er : Err)
    (h : (msetEncode env es).1 = .error er) : er = .encode := by
  induction es with
  | nil => simp [msetEncode] at h
  | cons e0 es ih =>
    cases henc : env.encode e0.value with
    | error u => simp [msetEncode, henc] at h; exact h.symm
    | ok b =>
      simp [msetEncode, henc] at h
      cases hrec : (msetEncode env es).1 with
      | error er2 =>
        rw [hrec] at h; simp [Except.map] at h
        rw [h] at hrec
        exact ih hrec
      | ok tl => rw [hrec] at h; simp [Except.map] at h

/-- A successful MSet encode phase pairs each input entry, in order,
with its successfully encoded bytes. -/
theorem msetEncode_ok {Val : Type} (env : Env Val) (es : List (Entry Val))
    (pairs : List (Entry Val × Bytes)) (h : (msetEncode env es).1 = .ok pairs) :
    pairs.map Prod.fst = es ∧ ∀ p ∈ pairs, env.encode p.1.value = .ok p.2 := by
  induction es generalizing pairs with
  | nil =>
    simp [msetEncode] at h
    subst h; simp
  | cons e0 es ih =>
    cases henc : env.encode e0.value with
    | error u => simp [msetEncode, henc] at h
    | ok b =>
      simp [msetEncode, henc] at h
      cases hrec : (msetEncode env es).1 with
      | error er => rw [hrec] at h; simp [Except.map] at h
      | ok tl =>
        rw [hrec] at h; simp [Except.map] at h
        obtain ⟨h1, h2⟩ := ih tl hrec
        subst h
        refine ⟨by simp [h1], ?_⟩
        intro p hp
        rcases List.mem_cons.mp hp with rfl | hmem
        · exact henc
        · exact h2 p hmem

/-- The MSet local phase either succeeds or fails with the cache error. -/
theorem msetLocal_result {Val : Type} (env : Env Val) (pairs : List (Entry Val × Bytes)) :
    (msetLocal env pairs).1 = .ok () ∨ (msetLocal env pairs).1 = .error .cache := by
  induction pairs with
  | nil => left; rfl
  | cons p rest ih =>
    by_cases hel : p.1.enableLocalCache = true
    · cases hcs : env.cacheSet p.1.key p.2 p.1.expiration with
      | error u => right; simp [msetLocal, hel, hcs]
      | ok u => simpa [msetLocal, hel, hcs] using ih
    · simpa [msetLocal, hel] using ih

/-- Claim C4: if any entry fails to encode, MSet aborts with the encode
error having attempted no write to either tier; if the pipelined batch
fails, MSet returns an error and no successful write to either tier has
occurred; and a successful MSet encoded every entry. -/
theorem mset_abort_no_partial_write {Val : Type} (env : Env Val) (es : List (Entry Val)) :
    ((∃ e ∈ es, env.encode e.value = .error ()) →
      (MSet env es).1 = .error .encode ∧ (MSet env es).2.filter Ev.isWriteCall = []) ∧
    ((MSet env es).1 = .error .pipe → (MSet env es).2.filter Ev.isWrite = []) ∧
    ((MSet env es).1 = .ok () → ∀ e ∈ es, ∃ b, env.encode e.value = .ok b) := by
  refine ⟨fun ⟨e, he, hf⟩ => ?_, fun hpipe => ?_, fun hok e he => ?_⟩
  · have h1 := msetEncode_err env es e he hf
    rcases hmse : msetEncode env es with ⟨r1, evs⟩
    rw [hmse] at h1; simp at h1; subst h1
    have h2 := msetEncode_no_write env es
    rw [hmse] at h2; simp at h2
    constructor
    · simp [MSet, hmse]
    · simpa [MSet, hmse] using h2
  · rcases hmse : msetEncode env es with ⟨r1, evs⟩
    have hnw := msetEncode_no_write env es
    rw [hmse] at hnw; simp at hnw
    cases r1 with
    | error er =>
      have := msetEncode_error_is_encode env es er (by rw [hmse])
      subst this
      rw [MSet, hmse] at hpipe
      cases hpipe
    | ok pairs =>
      cases hpe : env.pipeExec (pairs.map (fun p => PipeCmd.set p.1.key p.2 p.1.expiration)) with
      | error u =>
        have hw : List.filter Ev.isWrite evs = [] := by
          rw [List.filter_eq_nil_iff]
          intro a ha
          simp [Ev.isWrite_false a (hnw a ha)]
        rw [MSet]
        simp only [hmse]
        simp [hpe, List.filter_append, hw, Ev.isWrite]
      | ok rs =>
        rw [MSet] at hpipe
        simp [hmse, hpe] at hpipe
        rcases msetLocal_result env pairs with hml | hml <;> rw [hml] at hpipe <;> cases hpipe
  · rcases hmse : msetEncode env es with ⟨r1, evs⟩
    cases r1 with
    | error er =>
      rw [MSet, hmse] at hok
      cases hok
    | ok pairs =>
      obtain ⟨h1, h2⟩ := msetEncode_ok env es pairs (by rw [hmse])
      have : e ∈ pairs.map Prod.fst := by rw [h1]; exact he
      obtain ⟨p, hp, hpe⟩ := List.mem_map.mp this
      exact ⟨p.2, by rw [← hpe]; exact h2 p hp⟩

/-- Witness for C4: a concrete failing encode aborts with no write
attempted, and a concrete pipeline failure leaves no successful write. -/
theorem mset_abort_witness :
    ((MSet envEncFail [eLoc]).1 = .error .encode ∧
      (MSet envEncFail [eLoc]).2.filter Ev.isWriteCall = []) ∧
    (MSet envPipeFail [eLoc]).2.filter Ev.isWrite = [] :=
  ⟨(mset_abort_no_partial_write envEncFail [eLoc]).1 ⟨eLoc, by simp, rfl⟩,
   (mset_abort_no_partial_write envPipeFail [eLoc]).2.1 rfl⟩

/-- A successful MSet local phase recorded, for every locally cacheable
pair, a successful cache.Set of its key and bytes with the full TTL. -/
theorem msetLocal_ok_mem {Val : Type} (env : Env Val) (pairs : List (Entry Val × Bytes)) :
    (msetLocal env pairs).1 = .ok () →
    ∀ p ∈ pairs, p.1.enableLocalCache = true →
      Ev.cacheSetEv p.1.key p.2 p.1.expiration (.ok ()) ∈ (msetLocal env pairs).2 := by
  induction pairs with
  | nil => intro _ p hp; cases hp
  | cons q rest ih =>
    intro h p hp hel
    by_cases hq : q.1.enableLocalCache = true
    · cases hcs : env.cacheSet q.1.key q.2 q.1.expiration with
      | error u => simp [msetLocal, hq, hcs] at h
      | ok u =>
        rcases List.mem_cons.mp hp with rfl | hmem
        · simp [msetLocal, hq, hcs]
        · simp only [msetLocal, hq, if_true, hcs] at h ⊢
          exact List.mem_cons_of_mem _ (ih h p hmem hel)
    · simp only [msetLocal, hq, if_false] at h ⊢
      rcases List.mem_cons.mp hp with rfl | hmem
      · exact absurd hel hq
      · simp only [Bool.not_eq_true] at hq
        simp [hq] at h ⊢
        exact ih h p hmem hel

/-- Claim C5: a successful `Set` of a locally cacheable entry performed
a successful local-cache write with half the remote TTL, while a
successful `MSet` performed, for each locally cacheable entry, a
successful local-cache write with the full remote TTL. -/
theorem set_half_ttl_mset_full_ttl {Val : Type} (env : Env Val) (e : Entry Val)
    (es : List (Entry Val)) (helc : e.enableLocalCache = true) :
    ((Set env e).1 = .ok () →
      ∃ b, Ev.cacheSetEv e.key b (e.expiration / 2) (.ok ()) ∈ (Set env e).2) ∧
    ((MSet env es).1 = .ok () → e ∈ es →
      ∃ b, Ev.cacheSetEv e.key b e.expiration (.ok ()) ∈ (MSet env es).2) := by
  constructor
  · intro hok
    cases henc : env.encode e.value with
    | error u => rw [Set] at hok; simp [henc] at hok
    | ok b =>
      cases hss : env.storeSet e.key b e.expiration with
      | error u => rw [Set] at hok; simp [henc, hss] at hok
      | ok u =>
        cases hcs : env.cacheSet e.key b (e.expiration / 2) with
        | error u2 => rw [Set] at hok; simp [henc, hss, helc, hcs] at hok
        | ok u2 => exact ⟨b, by simp [Set, henc, hss, helc, hcs]⟩
  · intro hok hmem
    rcases hmse : msetEncode env es with ⟨r1, evs⟩
    cases r1 with
    | error er => rw [MSet, hmse] at hok; cases hok
    | ok pairs =>
      obtain ⟨h1, h2⟩ := msetEncode_ok env es pairs (by rw [hmse])
      cases hpe : env.pipeExec (pairs.map fun p => PipeCmd.set p.1.key p.2 p.1.expiration) with
      | error u => rw [MSet, hmse] at hok; simp [hpe] at hok
      | ok rs =>
        have hml : (msetLocal env pairs).1 = .ok () := by
          rw [MSet, hmse] at hok
          simpa [hpe] using hok
        have hmm : e ∈ pairs.map Prod.fst := by rw [h1]; exact hmem
        obtain ⟨p, hp, hpeq⟩ := List.mem_map.mp hmm
        have hm := msetLocal_ok_mem env pairs hml p hp (by rw [hpeq]; exact helc)
        refine ⟨p.2, ?_⟩
        rw [← hpeq]
        rw [MSet]
        simp only [hmse, hpe]
        exact List.mem_append_right _ (List.mem_cons_of_mem _ hm)

/-- Witness for C5: a concrete successful `Set` wrote locally with TTL
10/2 = 5, and a concrete successful `MSet` wrote locally with TTL 10. -/
theorem set_half_ttl_witness :
    (∃ b, Ev.cacheSetEv eLoc.key b (eLoc.expiration / 2) (.ok ()) ∈ (Set envMiss eLoc).2) ∧
    (∃ b, Ev.cacheSetEv eLoc.key b eLoc.expiration (.ok ()) ∈ (MSet envMiss [eLoc]).2) :=
  ⟨(set_half_ttl_mset_full_ttl envMiss eLoc [eLoc] rfl).1 rfl,
   (set_half_ttl_mset_full_ttl envMiss eLoc [eLoc] rfl).2 rfl (by simp)⟩

/-- When every local delete succeeds, the Del local loop succeeds and
records one successful cache.Del per key, in order. -/
theorem delLocal_all_ok {Val : Type} (env : Env Val) (ks : List String)
    (h : ∀ k ∈ ks, env.cacheDel k = .ok ()) :
    delLocal env ks = ((.ok (), ks.map (fun k => .cacheDelEv k (.ok ()))) : Except Err Unit × List (Ev Val)) := by
  induction ks with
  | nil => rfl
  | cons k ks ih =>
    have hk := h k (by simp)
    simp [delLocal, hk, ih (fun k' hk' => h k' (by simp [hk']))]

/-- The Del local loop stops at the first failing key: the keys before
it are deleted, the failing delete is recorded, and nothing follows. -/
theorem delLocal_first_fail {Val : Type} (env : Env Val) (ks1 : List String) (k : String)
    (ks2 : List String) (h1 : ∀ k' ∈ ks1, env.cacheDel k' = .ok ())
    (h2 : env.cacheDel k = .error ()) :
    delLocal env (ks1 ++ k :: ks2) =
      ((.error .cache, ks1.map (fun k' => .cacheDelEv k' (.ok ())) ++ [.cacheDelEv k (.error ())])
        : Except Err Unit × List (Ev Val)) := by
  induction ks1 with
  | nil => simp [delLocal, h2]
  | cons k0 ks1 ih =>
    have hk0 := h1 k0 (by simp)
    simp [delLocal, hk0, ih (fun k' hk' => h1 k' (by simp [hk']))]

/-- Claim C7: `Del` succeeds with no collaborator call on empty input;
a remote-delete failure aborts before any local delete; when the remote
delete succeeds, it is one call on all keys followed by per-key local
deletes in order — all succeeding, or stopping at and returning the
first local failure, leaving later keys untouched. -/
theorem del_semantics {Val : Type} (env : Env Val) (keys : List String) :
    (Del env [] = ((.ok (), []) : Except Err Unit × List (Ev Val))) ∧
    (keys ≠ [] → env.storeDel keys = .error () →
      (Del env keys).1 = .error .store ∧ (Del env keys).2.filter Ev.isCacheDel = []) ∧
    (keys ≠ [] → ∀ n, env.storeDel keys = .ok n → (∀ k ∈ keys, env.cacheDel k = .ok ()) →
      Del env keys = (.ok (), .storeDelEv keys (.ok n) :: keys.map (fun k => .cacheDelEv k (.ok ())))) ∧
    (∀ ks1 k ks2 n, keys = ks1 ++ k :: ks2 → env.storeDel keys = .ok n →
      (∀ k' ∈ ks1, env.cacheDel k' = .ok ()) → env.cacheDel k = .error () →
      Del env keys = (.error .cache,
        .storeDelEv keys (.ok n) ::
          (ks1.map (fun k' => .cacheDelEv k' (.ok ())) ++ [.cacheDelEv k (.error ())]))) := by
  refine ⟨rfl, ?_, ?_, ?_⟩
  · intro hne hsd
    cases keys with
    | nil => exact absurd rfl hne
    | cons k0 ks =>
      refine ⟨by simp [Del, hsd], by simp [Del, hsd, Ev.isCacheDel]⟩
  · intro hne n hsd hall
    cases keys with
    | nil => exact absurd rfl hne
    | cons k0 ks =>
      simp [Del, hsd, delLocal_all_ok env (k0 :: ks) hall]
  · intro ks1 k ks2 n hk hsd h1 h2
    subst hk
    have hdl := delLocal_first_fail env ks1 k ks2 h1 h2
    cases ks1 with
    | nil => simp_all [Del]
    | cons k0 ks1 => simp_all [Del]

/-- Witness for C7: a concrete all-success delete of two keys, and a
concrete delete of three keys where the second local delete fails and
the third key is never locally deleted. -/
theorem del_semantics_witness :
    Del envMiss ["a", "b"] = (.ok (), .storeDelEv ["a", "b"] (.ok 0) ::
      List.map (fun k => Ev.cacheDelEv k (.ok ())) ["a", "b"]) ∧
    Del envDelFail ["a", "b", "c"] = (.error .cache,
      .storeDelEv ["a", "b", "c"] (.ok 0) ::
        (List.map (fun k' => Ev.cacheDelEv k' (.ok ())) ["a"] ++ [.cacheDelEv "b" (.error ())])) :=
  ⟨(del_semantics envMiss ["a", "b"]).2.2.1 (by decide) 0 rfl (by decide),
   (del_semantics envDelFail ["a", "b", "c"]).2.2.2 ["a"] "b" ["c"] 0 rfl rfl (by decide) (by decide)⟩

/-- Claim C8 (amended): the subscription loop submits exactly one
asynchronous job per received message — every loop event is a dispatcher
submission, one per message, and no eviction is performed inline; the
job, when run, deserializes the payload into an ordered key list and
records a cache.Del for every key in order regardless of individual
failures, returning success. -/
theorem sub_one_job_per_message {Val : Type} (env : Env Val) (msgs : List Bytes)
    (payload : Bytes) (keys : List String)
    (hkeys : env.unmarshalKeys payload = .ok keys) :
    ((subLoop Val msgs).filter Ev.isSubmit).length = msgs.length ∧
    (subLoop Val msgs).filter Ev.isCacheDel = [] ∧
    (Job.run env (Job.invalidate payload)).1 = .ok () ∧
    (Job.run env (Job.invalidate payload)).2 =
      keys.map (fun k => Ev.cacheDelEv k (env.cacheDel k)) := by
  refine ⟨?_, ?_, ?_, ?_⟩
  · induction msgs with
    | nil => rfl
    | cons m ms ih => simpa [subLoop, Ev.isSubmit, List.filter_cons] using ih
  · induction msgs with
    | nil => rfl
    | cons m ms ih => simp [subLoop, Ev.isCacheDel, List.filter_cons]
  · simp [Job.run, hkeys]
  · simp [Job.run, hkeys]

/-- Witness for C8's amended claim: one message decoding to keys "a" and
"b", where deleting "a" fails locally, still records the delete of "b". -/
theorem sub_one_job_per_message_witness :
    ((subLoop Unit [p0]).filter Ev.isSubmit).length = [p0].length ∧
    (subLoop Unit [p0]).filter Ev.isCacheDel = [] ∧
    (Job.run envInvFail (Job.invalidate p0)).1 = .ok () ∧
    (Job.run envInvFail (Job.invalidate p0)).2 =
      ["a", "b"].map (fun k => Ev.cacheDelEv k (envInvFail.cacheDel k)) :=
  sub_one_job_per_message envInvFail [p0] p0 ["a", "b"] rfl

/-- Every local-cache write of `Set` targets the entry's own key and
only occurs when the entry is locally cacheable. -/
theorem set_cacheSet_guard {Val : Type} (env : Env Val) (e : Entry Val) (k : String)
    (b : Bytes) (t : Nat) (r : Except Unit Unit)
    (h : Ev.cacheSetEv k b t r ∈ (Set env e).2) : k = e.key ∧ e.enableLocalCache = true := by
  cases henc : env.encode e.value with
  | error u => simp [Set, henc] at h
  | ok b0 =>
    cases hss : env.storeSet e.key b0 e.expiration with
    | error u => simp [Set, henc, hss] at h
    | ok u =>
      by_cases hel : e.enableLocalCache = true
      · cases hcs : env.cacheSet e.key b0 (e.expiration / 2) with
        | error u2 =>
          simp [Set, henc, hss, hel, hcs] at h
          exact ⟨h.1, hel⟩
        | ok u2 =>
          simp [Set, henc, hss, hel, hcs] at h
          exact ⟨h.1, hel⟩
      · simp [Set, henc, hss, hel] at h

/-- The remote part of `Get` performs no local-cache write. -/
theorem getStore_no_cacheSet {Val : Type} (env : Env Val) (e : Entry Val) :
    (getStore env e).2.filter Ev.isCacheSet = [] := by
  cases hsg : env.storeGet e.key with
  | notFound => simp [getStore, hsg, Ev.isCacheSet, List.filter]
  | found b =>
    cases hdec : env.decode b with
    | error u => simp [getStore, hsg, hdec, Ev.isCacheSet, List.filter]
    | ok v => simp [getStore, hsg, hdec, Ev.isCacheSet, List.filter]
  | err => simp [getStore, hsg, Ev.isCacheSet, List.filter]

/-- The operation `Get` performs no local-cache write. -/
theorem get_no_cacheSet {Val : Type} (env : Env Val) (e : Entry Val) :
    (Get env e).2.filter Ev.isCacheSet = [] := by
  by_cases hel : e.enableLocalCache = true
  · cases hcg : env.cacheGet e.key with
    | error u =>
      have h1 := getStore_no_cacheSet env e
      simp [Get, hel, hcg, List.filter_cons, Ev.isCacheSet, h1]
    | ok cv =>
      cases cv with
      | bytes b =>
        cases hdec : env.decode b with
        | error u => simp [Get, hel, hcg, hdec, Ev.isCacheSet, List.filter]
        | ok v => simp [Get, hel, hcg, hdec, Ev.isCacheSet, List.filter]
      | other => simp [Get, hel, hcg, Ev.isCacheSet, List.filter]
  · have h1 := getStore_no_cacheSet env e
    simp only [Get, hel, if_false, Bool.false_eq_true]
    exact h1

/-- Every event of the Del local loop is a cache.Del call. -/
theorem delLocal_events {Val : Type} (env : Env Val) (ks : List String) :
    ∀ a ∈ (delLocal env ks).2, ∃ k r, a = Ev.cacheDelEv k r := by
  induction ks with
  | nil => intro a ha; cases ha
  | cons k0 ks ih =>
    intro a ha
    cases hcd : env.cacheDel k0 with
    | error u =>
      simp [delLocal, hcd] at ha
      exact ⟨k0, .error u, ha⟩
    | ok u =>
      simp [delLocal, hcd] at ha
      rcases ha with ha | ha
      · exact ⟨k0, .ok u, ha⟩
      · exact ih a ha

/-- The operation `Del` performs no local-cache write. -/
theorem del_no_cacheSet {Val : Type} (env : Env Val) (keys : List String) :
    (Del env keys).2.filter Ev.isCacheSet = [] := by
  cases keys with
  | nil => rfl
  | cons k0 ks =>
    cases hsd : env.storeDel (k0 :: ks) with
    | error u => simp [Del, hsd, Ev.isCacheSet, List.filter]
    | ok n =>
      rw [List.filter_eq_nil_iff]
      intro a ha
      simp [Del, hsd] at ha
      rcases ha with ha | ha
      · subst ha; simp [Ev.isCacheSet]
      · obtain ⟨k, r, rfl⟩ := delLocal_events env (k0 :: ks) a ha
        simp [Ev.isCacheSet]

/-- Every event of the MSet local phase is a cache.Set of the key,
bytes and full TTL of a locally cacheable pair. -/
theorem msetLocal_events {Val : Type} (env : Env Val) (pairs : List (Entry Val × Bytes)) :
    ∀ a ∈ (msetLocal env pairs).2, ∃ p ∈ pairs, ∃ r,
      a = Ev.cacheSetEv p.1.key p.2 p.1.expiration r ∧ p.1.enableLocalCache = true := by
  induction pairs with
  | nil => intro a ha; cases ha
  | cons q rest ih =>
    intro a ha
    by_cases hq : q.1.enableLocalCache = true
    · cases hcs : env.cacheSet q.1.key q.2 q.1.expiration with
      | error u =>
        simp [msetLocal, hq, hcs] at ha
        exact ⟨q, by simp, .error u, ha, hq⟩
      | ok u =>
        simp [msetLocal, hq, hcs] at ha
        rcases ha with ha | ha
        · exact ⟨q, by simp, .ok u, ha, hq⟩
        · obtain ⟨p, hp, r, heq, hel⟩ := ih a ha
          exact ⟨p, List.mem_cons_of_mem _ hp, r, heq, hel⟩
    · simp only [msetLocal] at ha
      rw [if_neg hq] at ha
      obtain ⟨p, hp, r, heq, hel⟩ := ih a ha
      exact ⟨p, List.mem_cons_of_mem _ hp, r, heq, hel⟩

/-- A pair drawn from an enumeration has its second component in the
underlying list. -/
theorem snd_mem_of_mem_enumFrom {α : Type} (l : List α) : ∀ (n : Nat) (p : Nat × α),
    p ∈ l.enumFrom n → p.2 ∈ l := by
  induction l with
  | nil => intro n p h; cases h
  | cons x xs ih =>
    intro n p h
    rcases List.mem_cons.mp h with rfl | h2
    · simp
    · exact List.mem_cons_of_mem _ (ih (n + 1) p h2)

/-- The scan loop's events are cache.Get and decode events only: no
local-cache write and no dispatcher submission. -/
theorem bgScan_events {Val : Type} (env : Env Val) (l : List (Nat × Entry Val)) :
    ∀ a ∈ (bgScan env l).2, Ev.isCacheSet a = false ∧ Ev.isSubmit a = false := by
  induction l with
  | nil => intro a ha; cases ha
  | cons q rest ih =>
    intro a ha
    by_cases hq : q.2.enableLocalCache = true
    · cases hcg : env.cacheGet q.2.key with
      | ok cv =>
        cases cv with
        | bytes b =>
          cases hdec : env.decode b with
          | error u =>
            simp [bgScan, hq, hcg, hdec] at ha
            rcases ha with rfl | rfl <;> simp [Ev.isCacheSet, Ev.isSubmit]
          | ok v =>
            simp [bgScan, hq, hcg, hdec] at ha
            rcases ha with rfl | rfl <;> simp [Ev.isCacheSet, Ev.isSubmit]
        | other =>
          simp [bgScan, hq, hcg] at ha
          rcases ha with rfl | ha
          · simp [Ev.isCacheSet, Ev.isSubmit]
          · exact ih a ha
      | error u =>
        simp [bgScan, hq, hcg] at ha
        rcases ha with rfl | ha
        · simp [Ev.isCacheSet, Ev.isSubmit]
        · exact ih a ha
    · simp only [bgScan] at ha
      rw [if_neg hq] at ha
      exact ih a ha

/-- A completed scan's pending pairs come from the input list. -/
theorem bgScan_pending {Val : Type} (env : Env Val) (l : List (Nat × Entry Val)) :
    ∀ f pen, (bgScan env l).1 = ScanOut.done f pen → ∀ p ∈ pen, p ∈ l := by
  induction l with
  | nil =>
    intro f pen h p hp
    simp [bgScan] at h
    rw [h.2] at hp
    cases hp
  | cons q rest ih =>
    intro f pen h p hp
    by_cases hq : q.2.enableLocalCache = true
    · cases hcg : env.cacheGet q.2.key with
      | ok cv =>
        cases cv with
        | bytes b =>
          cases hdec : env.decode b with
          | error u => simp [bgScan, hq, hcg, hdec] at h
          | ok v => simp [bgScan, hq, hcg, hdec] at h
        | other =>
          simp only [bgScan] at h
          rw [if_pos hq, hcg] at h
          cases hrec : (bgScan env rest).1 with
          | halted r => rw [hrec] at h; simp [ScanOut.addFound] at h
          | done f0 p0 =>
            rw [hrec] at h
            simp [ScanOut.addFound] at h
            rw [← h.2] at hp
            exact List.mem_cons_of_mem _ (ih f0 p0 hrec p hp)
      | error u =>
        simp only [bgScan] at h
        rw [if_pos hq, hcg] at h
        cases hrec : (bgScan env rest).1 with
        | halted r => rw [hrec] at h; simp [ScanOut.addFound] at h
        | done f0 p0 =>
          rw [hrec] at h
          simp [ScanOut.addFound] at h
          rw [← h.2] at hp
          exact List.mem_cons_of_mem _ (ih f0 p0 hrec p hp)
    · simp only [bgScan] at h
      rw [if_neg hq] at h
      cases hrec : (bgScan env rest).1 with
      | halted r => rw [hrec] at h; simp [ScanOut.addPending] at h
      | done f0 p0 =>
        rw [hrec] at h
        simp [ScanOut.addPending] at h
        rw [← h.2] at hp
        rcases List.mem_cons.mp hp with rfl | hp2
        · exact List.mem_cons_self _ _
        · exact List.mem_cons_of_mem _ (ih f0 p0 hrec p hp2)

/-- The result loop's events carry no local-cache write, and each of its
submissions is a backfill of a pending entry. -/
theorem bgExecRes_events {Val : Type} (env : Env Val) (l : List ((Nat × Entry Val) × StoreGetRes)) :
    ∀ a ∈ (bgExecRes env l).2, Ev.isCacheSet a = false ∧
      (∀ j, a = Ev.submitEv j → ∃ x ∈ l, j = Job.backfill x.1.2) := by
  induction l with
  | nil => intro a ha; cases ha
  | cons x rest ih =>
    intro a ha
    rcases x with ⟨p, res⟩
    cases res with
    | notFound =>
      simp [bgExecRes] at ha
      rcases ha with rfl | ha
      · refine ⟨by simp [Ev.isCacheSet], fun j hj => ?_⟩
        simp at hj
        exact ⟨(p, .notFound), by simp, hj.symm⟩
      · obtain ⟨h1, h2⟩ := ih a ha
        refine ⟨h1, fun j hj => ?_⟩
        obtain ⟨x, hx, hjj⟩ := h2 j hj
        exact ⟨x, List.mem_cons_of_mem _ hx, hjj⟩
    | found b =>
      cases hdec : env.decode b with
      | error u =>
        simp [bgExecRes, hdec] at ha
        subst ha
        exact ⟨by simp [Ev.isCacheSet], fun j hj => by simp at hj⟩
      | ok v =>
        simp [bgExecRes, hdec] at ha
        rcases ha with rfl | ha
        · exact ⟨by simp [Ev.isCacheSet], fun j hj => by simp at hj⟩
        · obtain ⟨h1, h2⟩ := ih a ha
          refine ⟨h1, fun j hj => ?_⟩
          obtain ⟨x, hx, hjj⟩ := h2 j hj
          exact ⟨x, List.mem_cons_of_mem _ hx, hjj⟩
    | err =>
      simp [bgExecRes] at ha

/-- Every `batchGet` event is free of local-cache writes, and every
submission it makes is a backfill of an input entry. -/
theorem batchGet_events {Val : Type} (env : Env Val) (es : List (Entry Val)) :
    ∀ a ∈ (batchGet env es).2, Ev.isCacheSet a = false ∧
      (∀ j, a = Ev.submitEv j → ∃ e2 ∈ es, j = Job.backfill e2) := by
  intro a ha
  simp only [batchGet] at ha
  split at ha
  case _ er evs heq =>
    have hb := bgScan_events env es.enum a (by rw [heq]; exact ha)
    refine ⟨hb.1, fun j hj => ?_⟩
    subst hj
    simp [Ev.isSubmit] at hb
  case _ u evs heq =>
    have hb := bgScan_events env es.enum a (by rw [heq]; exact ha)
    refine ⟨hb.1, fun j hj => ?_⟩
    subst hj
    simp [Ev.isSubmit] at hb
  case _ found pending evs heq =>
    split at ha
    case _ u hpe =>
      rcases List.mem_append.mp ha with hmem | hmem
      · have hb := bgScan_events env es.enum a (by rw [heq]; exact hmem)
        refine ⟨hb.1, fun j hj => ?_⟩
        subst hj
        simp [Ev.isSubmit] at hb
      · simp at hmem
        subst hmem
        exact ⟨by simp [Ev.isCacheSet], fun j hj => by simp at hj⟩
    case _ rs hpe =>
      split at ha
      case _ er evs2 heq2 =>
        rcases List.mem_append.mp ha with hmem | hmem
        · have hb := bgScan_events env es.enum a (by rw [heq]; exact hmem)
          refine ⟨hb.1, fun j hj => ?_⟩
          subst hj
          simp [Ev.isSubmit] at hb
        · rcases List.mem_cons.mp hmem with rfl | hmem2
          · exact ⟨by simp [Ev.isCacheSet], fun j hj => by simp at hj⟩
          · have hb := bgExecRes_events env (pending.zip rs) a (by rw [heq2]; exact hmem2)
            refine ⟨hb.1, fun j hj => ?_⟩
            obtain ⟨x, hx, hjj⟩ := hb.2 j hj
            have hx1 : x.1 ∈ pending := (List.of_mem_zip hx).1
            have hx2 : x.1 ∈ es.enum := bgScan_pending env es.enum found pending (by rw [heq]) x.1 hx1
            exact ⟨x.1.2, snd_mem_of_mem_enumFrom es 0 x.1 hx2, hjj⟩
      case _ found2 evs2 heq2 =>
        rcases List.mem_append.mp ha with hmem | hmem
        · have hb := bgScan_events env es.enum a (by rw [heq]; exact hmem)
          refine ⟨hb.1, fun j hj => ?_⟩
          subst hj
          simp [Ev.isSubmit] at hb
        · rcases List.mem_cons.mp hmem with rfl | hmem2
          · exact ⟨by simp [Ev.isCacheSet], fun j hj => by simp at hj⟩
          · have hb := bgExecRes_events env (pending.zip rs) a (by rw [heq2]; exact hmem2)
            refine ⟨hb.1, fun j hj => ?_⟩
            obtain ⟨x, hx, hjj⟩ := hb.2 j hj
            have hx1 : x.1 ∈ pending := (List.of_mem_zip hx).1
            have hx2 : x.1 ∈ es.enum := bgScan_pending env es.enum found pending (by rw [heq]) x.1 hx1
            exact ⟨x.1.2, snd_mem_of_mem_enumFrom es 0 x.1 hx2, hjj⟩

/-- Every `mgetChunks` event is free of local-cache writes, and every
submission it makes is a backfill of an input entry. -/
theorem mgetChunks_events {Val : Type} (env : Env Val) (es : List (Entry Val)) (cs : List (Nat × Nat)) :
    ∀ a ∈ (mgetChunks env es cs).2, Ev.isCacheSet a = false ∧
      (∀ j, a = Ev.submitEv j → ∃ e2 ∈ es, j = Job.backfill e2) := by
  induction cs with
  | nil => intro a ha; cases ha
  | cons c rest ih =>
    intro a ha
    have hsub : ∀ e2, e2 ∈ (es.drop c.1).take c.2 → e2 ∈ es := by
      intro e2 h
      exact List.drop_subset _ _ (List.take_subset _ _ h)
    simp only [mgetChunks] at ha
    split at ha
    case _ er evs heq =>
      have hb := batchGet_events env ((es.drop c.1).take c.2) a (by rw [heq]; exact ha)
      refine ⟨hb.1, fun j hj => ?_⟩
      obtain ⟨e2, he2, hjj⟩ := hb.2 j hj
      exact ⟨e2, hsub e2 he2, hjj⟩
    case _ ee evs heq =>
      rcases List.mem_append.mp ha with hmem | hmem
      · have hb := batchGet_events env ((es.drop c.1).take c.2) a (by rw [heq]; exact hmem)
        refine ⟨hb.1, fun j hj => ?_⟩
        obtain ⟨e2, he2, hjj⟩ := hb.2 j hj
        exact ⟨e2, hsub e2 he2, hjj⟩
      · exact ih a hmem

/-- Every `MGet` event is free of local-cache writes, and every
submission it makes is a backfill of an input entry. -/
theorem mget_events {Val : Type} (env : Env Val) (es : List (Entry Val)) :
    ∀ a ∈ (MGet env es).2, Ev.isCacheSet a = false ∧
      (∀ j, a = Ev.submitEv j → ∃ e2 ∈ es, j = Job.backfill e2) :=
  fun a ha => mgetChunks_events env es (chunkPlan es.length 3000) a ha

/-- Every local-cache write of `MSet` targets the key, bytes and TTL of
some locally cacheable input entry. -/
theorem mset_cacheSet_guard {Val : Type} (env : Env Val) (es : List (Entry Val)) (k : String)
    (b : Bytes) (t : Nat) (r : Except Unit Unit)
    (h : Ev.cacheSetEv k b t r ∈ (MSet env es).2) :
    ∃ e2 ∈ es, k = e2.key ∧ e2.enableLocalCache = true := by
  rcases hmse : msetEncode env es with ⟨r1, evs⟩
  have hencEv : ∀ a ∈ evs, ∃ v rr, a = Ev.encodeEv v rr := fun a ha =>
    msetEncode_events env es a (by rw [hmse]; exact ha)
  cases r1 with
  | error er =>
    rw [MSet, hmse] at h
    obtain ⟨v, rr, heq⟩ := hencEv _ h
    simp at heq
  | ok pairs =>
    obtain ⟨hfst, _⟩ := msetEncode_ok env es pairs (by rw [hmse])
    cases hpe : env.pipeExec (pairs.map fun p => PipeCmd.set p.1.key p.2 p.1.expiration) with
    | error u =>
      simp only [MSet, hmse, hpe, List.mem_append, List.mem_singleton] at h
      rcases h with h | h
      · obtain ⟨v, rr, heq⟩ := hencEv _ h
        simp at heq
      · simp at h
    | ok rs =>
      simp only [MSet, hmse, hpe, List.mem_append, List.mem_cons] at h
      rcases h with h | h | h
      · obtain ⟨v, rr, heq⟩ := hencEv _ h
        simp at heq
      · simp at h
      · obtain ⟨p, hp, rr, heq, hel⟩ := msetLocal_events env pairs _ h
        have hk : k = p.1.key := by
          injection heq with hk _ _ _
        refine ⟨p.1, ?_, hk, hel⟩
        rw [← hfst]
        exact List.mem_map_of_mem Prod.fst hp

/-- The operation `Set` on a non-locally-cacheable entry performs no local-cache
write at all. -/
theorem set_ineligible_no_cacheSet {Val : Type} (env : Env Val) (e : Entry Val)
    (h1 : e.enableLocalCache = false) : (Set env e).2.filter Ev.isCacheSet = [] := by
  rw [List.filter_eq_nil_iff]
  intro a ha hcs
  cases a <;> simp [Ev.isCacheSet] at hcs
  case cacheSetEv k b t r =>
    have hg := set_cacheSet_guard env e k b t r ha
    rw [h1] at hg
    exact Bool.false_ne_true hg.2

/-- Claim C9: for an entry that is not locally cacheable (in a batch in
which every entry sharing its key is also not locally cacheable), no
facade operation — Set, MSet, Get and its backfill job, MGet and its
backfill jobs, Del — records a local-cache write under that entry's key:
every local-cache write is guarded by the eligibility flag. -/
theorem ineligible_entry_never_cached {Val : Type} (env : Env Val) (e : Entry Val)
    (es : List (Entry Val)) (keys : List String)
    (h1 : e.enableLocalCache = false)
    (h2 : ∀ e2 ∈ es, e2.key = e.key → e2.enableLocalCache = false) :
    ((Set env e).2.filter Ev.isCacheSet = []) ∧
    (∀ b t r, Ev.cacheSetEv e.key b t r ∉ (MSet env es).2) ∧
    ((Get env e).2.filter Ev.isCacheSet = []) ∧
    ((Job.run env (Job.backfill e)).2.filter Ev.isCacheSet = []) ∧
    (∀ b t r, Ev.cacheSetEv e.key b t r ∉ (MGet env es).2) ∧
    (∀ j, Ev.submitEv j ∈ (MGet env es).2 →
      ∀ b t r, Ev.cacheSetEv e.key b t r ∉ (Job.run env j).2) ∧
    ((Del env keys).2.filter Ev.isCacheSet = []) := by
  refine ⟨set_ineligible_no_cacheSet env e h1, ?_, get_no_cacheSet env e,
    set_ineligible_no_cacheSet env e h1, ?_, ?_, del_no_cacheSet env keys⟩
  · intro b t r hmem
    obtain ⟨e2, he2, hk, hel⟩ := mset_cacheSet_guard env es e.key b t r hmem
    have hf := h2 e2 he2 hk.symm
    rw [hf] at hel
    exact Bool.false_ne_true hel
  · intro b t r hmem
    have hb := (mget_events env es _ hmem).1
    simp [Ev.isCacheSet] at hb
  · intro j hj b t r hmem
    obtain ⟨e2, he2, rfl⟩ := (mget_events env es _ hj).2 j rfl
    have hg := set_cacheSet_guard env e2 e.key b t r hmem
    have hf := h2 e2 he2 hg.1.symm
    rw [hf] at hg
    exact Bool.false_ne_true hg.2

/-- Witness for C9: the non-locally-cacheable entry under "k2" is never
written locally by a concrete `Set`, nor under its key by a concrete
`MSet` of a batch containing it. -/
theorem ineligible_entry_never_cached_witness :
    ((Set envMiss eRem).2.filter Ev.isCacheSet = []) ∧
    Ev.cacheSetEv eRem.key [1] 10 (.ok ()) ∉ (MSet envMiss [eLoc, eRem]).2 :=
  ⟨(ineligible_entry_never_cached envMiss eRem [eLoc, eRem] ["a"] rfl (by decide)).1,
   (ineligible_entry_never_cached envMiss eRem [eLoc, eRem] ["a"] rfl (by decide)).2.1
     [1] 10 (.ok ())⟩

end Freesia
